import Mathlib

set_option maxHeartbeats 1000000
set_option maxRecDepth 4000

/-!
Verification of the lexer in src/lexer.rs (crate prodio).

The scanner is embedded shallowly: the input `&[u8]` becomes `List Nat`
(byte values), `usize` becomes `Nat` with an explicit bound `usizeMax`
(the code targets a 64-bit platform), and the `while` loop of `Lexer::lex`
becomes a fuel-indexed structural recursion `lexLoop` whose fuel is the
number of unread bytes, so that one unit of fuel is spent per loop
iteration (each iteration consumes at least one byte, hence the fuel
`input.length` never runs out; the lemmas below carry `rest.length ≤ fuel`).

`parse::<usize>().unwrap()` panics on a digit run whose value exceeds
`usize::MAX`; this is modelled by the `LexResult.panicked` outcome.
The `from_utf8(..).unwrap()` calls never panic because digit and
identifier runs consist of ASCII bytes only (all below 128); accordingly
the embedding decodes those runs bytewise with `Char.ofNat`.
-/

/-- Modelled from the spec: `Loc(start, end)` from the crate's util module
(the file util.rs is not under src/): a half-open byte-offset range
`[start, stop)` into the input buffer.  The Rust field `end` is a reserved
word in Lean and is called `stop` here. -/
structure Loc where
  start : Nat
  stop : Nat
deriving DecidableEq

/-- Modelled from the spec: the annotation wrapper `Annotation<T>` from the
crate's util module (util.rs is not under src/): a value paired with its
source location. -/
structure Annot (α : Type) where
  value : α
  loc : Loc
deriving DecidableEq

/-- enum TokenKind from src/lexer.rs, constructors in source order. -/
inductive TokenKind where
  | Number : Nat → TokenKind
  | Identifier : String → TokenKind
  | Int : TokenKind
  | Plus : TokenKind
  | Minus : TokenKind
  | Asterisk : TokenKind
  | Slash : TokenKind
  | LParen : TokenKind
  | RParen : TokenKind
  | Assignment : TokenKind
  | Semicolon : TokenKind
  | Return : TokenKind
deriving DecidableEq

/-- pub type Token = Annotation<TokenKind>. -/
abbrev Token := Annot TokenKind

/-- enum LexErrorKind from src/lexer.rs. -/
inductive LexErrorKind where
  | InvalidChar : Char → LexErrorKind
  | Eof : LexErrorKind
deriving DecidableEq

/-- pub type LexError = Annotation<LexErrorKind>. -/
abbrev LexError := Annot LexErrorKind

/-- Byte class b'0'..=b'9' (the dispatch arm for numbers, and the run
predicate `|b| b"0123456789".contains(&b)` of lex_number). -/
def isDigitByte (b : Nat) : Bool :=
  decide (48 ≤ b) && decide (b ≤ 57)

/-- Byte class b'a'..=b'z' | b'A'..=b'Z' | b'_' (the dispatch arm for
identifiers). -/
def isIdentStartByte (b : Nat) : Bool :=
  (decide (97 ≤ b) && decide (b ≤ 122)) || (decide (65 ≤ b) && decide (b ≤ 90)) || b == 95

/-- Run predicate of lex_identifier: `|b| b.is_ascii_alphanumeric() || b == b'_'`
(letters, digits and underscore). -/
def isIdentByte (b : Nat) : Bool :=
  isIdentStartByte b || isDigitByte b

/-- Byte class b' ' | b'\n' | b'\t' (the whitespace dispatch arm, and the
run predicate `|b| b" \n\t".contains(&b)` of skip_spaces). -/
def isSpaceByte (b : Nat) : Bool :=
  b == 32 || b == 10 || b == 9

/-- The eight dedicated one-byte operator/punctuation bytes + - * / ( ) ; =. -/
def isOpByte (b : Nat) : Bool :=
  b == 43 || b == 45 || b == 42 || b == 47 || b == 40 || b == 41 || b == 59 || b == 61

/-- A byte matched by some arm of the dispatch `match` in Lexer::lex other
than the catch-all error arm, in source arm order. -/
def recognizedByte (b : Nat) : Bool :=
  decide (b = 43) || decide (b = 45) || decide (b = 42) || decide (b = 47) ||
  decide (b = 40) || decide (b = 41) || isDigitByte b || isIdentStartByte b ||
  decide (b = 59) || decide (b = 61) || isSpaceByte b

/-- usize::MAX on the 64-bit platform the crate targets. -/
def usizeMax : Nat := 2 ^ 64 - 1

/-- Value of a decimal digit-byte run, as computed by
`from_utf8(..).unwrap().parse::<usize>()` on a run of ASCII digits
(str::parse folds digits left to right; it errors — and the source then
panics on unwrap — exactly when the value exceeds usize::MAX, which the
embedding checks against `usizeMax` at the use site). -/
def digitsToNat (ds : List Nat) : Nat :=
  ds.foldl (fun acc b => acc * 10 + (b - 48)) 0

/-- `from_utf8(..).unwrap().to_string()` on an ASCII identifier run: decode
each byte as its ASCII character. -/
def bytesToString (bs : List Nat) : String :=
  String.mk (bs.map (fun b => Char.ofNat b))

/-- fn reserve_keywords: the keyword table built fresh on every lex call.
The HashMap with its two inserts is modelled as an association list with
exact-match lookup (only `get` is ever used on it). -/
def reserve_keywords : List (String × TokenKind) :=
  [("int", TokenKind.Int), ("return", TokenKind.Return)]

/-- Outcome of one call to Lexer::lex: Ok(tokens), Err(lex error), or a
panic of the process (the parse().unwrap() on an overflowing digit run). -/
inductive LexResult where
  | ok : List Token → LexResult
  | error : LexError → LexResult
  | panicked : LexResult
deriving DecidableEq

/-- The while loop of Lexer::lex.  `rest` is the unread suffix
`&input[pos..]` of the input, `pos` the cursor, `tokens` the tokens pushed
so far (the `self.tokens` field).  Returns the Result of lex paired with
the final contents of the public `tokens` field.  Rust's
`recognize_multiple_char(f)`, a while loop advancing from `self.pos` over
bytes satisfying `f`, returns `pos + (takeWhile f rest).length`; the run it
scanned is `takeWhile f rest` and the remaining input is
`dropWhile f rest`.  Each `if` below mirrors one arm of the dispatch
`match`, in source order. -/
def lexLoop (keywords : List (String × TokenKind)) :
    Nat → List Nat → Nat → List Token → LexResult × List Token
  | _, [], _, tokens => (.ok tokens, tokens)
  | 0, _ :: _, _, tokens => (.panicked, tokens)
  | fuel + 1, b :: rest, pos, tokens =>
    if b = 43 then
      lexLoop keywords fuel rest (pos + 1) (tokens ++ [⟨.Plus, ⟨pos, pos + 1⟩⟩])
    else if b = 45 then
      lexLoop keywords fuel rest (pos + 1) (tokens ++ [⟨.Minus, ⟨pos, pos + 1⟩⟩])
    else if b = 42 then
      lexLoop keywords fuel rest (pos + 1) (tokens ++ [⟨.Asterisk, ⟨pos, pos + 1⟩⟩])
    else if b = 47 then
      lexLoop keywords fuel rest (pos + 1) (tokens ++ [⟨.Slash, ⟨pos, pos + 1⟩⟩])
    else if b = 40 then
      lexLoop keywords fuel rest (pos + 1) (tokens ++ [⟨.LParen, ⟨pos, pos + 1⟩⟩])
    else if b = 41 then
      lexLoop keywords fuel rest (pos + 1) (tokens ++ [⟨.RParen, ⟨pos, pos + 1⟩⟩])
    else if isDigitByte b then
      let run := (b :: rest).takeWhile isDigitByte
      let n := digitsToNat run
      if n ≤ usizeMax then
        lexLoop keywords fuel ((b :: rest).dropWhile isDigitByte) (pos + run.length)
          (tokens ++ [⟨.Number n, ⟨pos, pos + run.length⟩⟩])
      else
        (.panicked, tokens)
    else if isIdentStartByte b then
      let run := (b :: rest).takeWhile isIdentByte
      let s := bytesToString run
      let kind := (List.lookup s keywords).getD (.Identifier s)
      lexLoop keywords fuel ((b :: rest).dropWhile isIdentByte) (pos + run.length)
        (tokens ++ [⟨kind, ⟨pos, pos + run.length⟩⟩])
    else if b = 59 then
      lexLoop keywords fuel rest (pos + 1) (tokens ++ [⟨.Semicolon, ⟨pos, pos + 1⟩⟩])
    else if b = 61 then
      lexLoop keywords fuel rest (pos + 1) (tokens ++ [⟨.Assignment, ⟨pos, pos + 1⟩⟩])
    else if isSpaceByte b then
      let run := (b :: rest).takeWhile isSpaceByte
      lexLoop keywords fuel ((b :: rest).dropWhile isSpaceByte) (pos + run.length) tokens
    else
      (.error ⟨.InvalidChar (Char.ofNat b), ⟨pos, pos + 1⟩⟩, tokens)

/-- The Lexer struct: input buffer, cursor, and the public tokens field. -/
structure Lexer where
  input : List Nat
  pos : Nat
  tokens : List Token

/-- Lexer::new. -/
def Lexer.new (input : List Nat) : Lexer :=
  ⟨input, 0, []⟩

/-- Lexer::lex driven to completion on a lexer state: builds the keyword
table (once per call, as in the source) and runs the scan loop.  Returns
the Result together with the final contents of the public tokens field. -/
def Lexer.lex (lx : Lexer) : LexResult × List Token :=
  let keywords := reserve_keywords
  lexLoop keywords (lx.input.length - lx.pos) (lx.input.drop lx.pos) lx.pos lx.tokens

/-- One full scan of an input, as in `Lexer::new(input).lex()`. -/
def lexScan (input : List Nat) : LexResult × List Token :=
  (Lexer.new input).lex

/-- The value lex returns to the caller. -/
def lexResult (input : List Nat) : LexResult :=
  (lexScan input).fst

/-- The contents of the public `tokens` field after the lex call. -/
def lexTokensField (input : List Nat) : List Token :=
  (lexScan input).snd

/-- Value bound check on every maximal decimal-digit run of a byte list:
`runsFitAux acc l` scans `l` carrying the value `acc` of the digit run in
progress and checks each completed run (and the trailing one) against
`usizeMax`.  `runsFit l` states that every maximal digit run of `l` parses
into usize without overflow — the precondition under which the
`parse().unwrap()` of lex_number cannot panic. -/
def runsFitAux (acc : Nat) : List Nat → Bool
  | [] => decide (acc ≤ usizeMax)
  | b :: rest =>
    if isDigitByte b then runsFitAux (acc * 10 + (b - 48)) rest
    else decide (acc ≤ usizeMax) && runsFitAux 0 rest

/-- Every maximal decimal-digit run of the byte list has value at most
usize::MAX. -/
def runsFit (l : List Nat) : Bool :=
  runsFitAux 0 l

/-- Spans of a token list, read left to right starting no earlier than `p`:
nonempty, in strictly increasing source order, pairwise non-overlapping. -/
def chainFrom (p : Nat) : List Token → Bool
  | [] => true
  | t :: ts => decide (p ≤ t.loc.start) && decide (t.loc.start < t.loc.stop) && chainFrom t.loc.stop ts

/-- Byte offset `i` lies inside the span of some token of the list. -/
def covered (ts : List Token) (i : Nat) : Prop :=
  ∃ t, t ∈ ts ∧ t.loc.start ≤ i ∧ i < t.loc.stop

/-- What the scan loop guarantees about a single emitted token, relative to
the input buffer: a Number token covers a maximal digit run, an
Identifier/Int/Return token covers a maximal identifier run, and each
operator/punctuation token covers exactly its one dispatch byte. -/
def tokenRunOK (input : List Nat) (t : Token) : Prop :=
  match t.value with
  | .Number _ =>
      (∀ j, t.loc.start ≤ j → j < t.loc.stop → isDigitByte (input.getD j 0) = true) ∧
      (t.loc.stop < input.length → isDigitByte (input.getD t.loc.stop 0) = false)
  | .Identifier _ | .Int | .Return =>
      (∀ j, t.loc.start ≤ j → j < t.loc.stop → isIdentByte (input.getD j 0) = true) ∧
      (t.loc.stop < input.length → isIdentByte (input.getD t.loc.stop 0) = false)
  | .Plus => input.getD t.loc.start 0 = 43 ∧ t.loc.stop = t.loc.start + 1
  | .Minus => input.getD t.loc.start 0 = 45 ∧ t.loc.stop = t.loc.start + 1
  | .Asterisk => input.getD t.loc.start 0 = 42 ∧ t.loc.stop = t.loc.start + 1
  | .Slash => input.getD t.loc.start 0 = 47 ∧ t.loc.stop = t.loc.start + 1
  | .LParen => input.getD t.loc.start 0 = 40 ∧ t.loc.stop = t.loc.start + 1
  | .RParen => input.getD t.loc.start 0 = 41 ∧ t.loc.stop = t.loc.start + 1
  | .Assignment => input.getD t.loc.start 0 = 61 ∧ t.loc.stop = t.loc.start + 1
  | .Semicolon => input.getD t.loc.start 0 = 59 ∧ t.loc.stop = t.loc.start + 1

/-- Invariant of a completed scan of the region `[pos, B)` of the input:
the emitted tokens chain left to right inside the region, each satisfies
`tokenRunOK`, and a byte offset of the region is covered by a token span
precisely when it does not hold a whitespace byte (so token spans plus
whitespace gaps tile the region exactly). -/
def scanInv (input : List Nat) (pos B : Nat) (ts : List Token) : Prop :=
  chainFrom pos ts = true ∧
  (∀ t ∈ ts, t.loc.stop ≤ B ∧ tokenRunOK input t) ∧
  (∀ i, pos ≤ i → i < B → (covered ts i ↔ isSpaceByte (input.getD i 0) = false))

/-- Post-condition of a (partial) run of the scan loop started at cursor
`pos` with accumulated tokens `tokens`: on Ok, the returned list is the
tokens field, extends `tokens`, and the new tokens satisfy the scan
invariant over the remaining region up to the end of the input; on Err,
the error is an InvalidChar wrapping the first unclassifiable byte at or
after `pos`, with a one-byte span inside the input, every byte scanned
before it is recognized, and the tokens field extends `tokens` with tokens
satisfying the scan invariant over the region before the error. -/
def OkErrPost (input : List Nat) (pos : Nat) (tokens : List Token) :
    LexResult × List Token → Prop
  | (.ok res, snd) =>
      snd = res ∧ ∃ ts, res = tokens ++ ts ∧ scanInv input pos input.length ts
  | (.error e, snd) =>
      pos ≤ e.loc.start ∧ e.loc.start < input.length ∧ e.loc.stop = e.loc.start + 1 ∧
      recognizedByte (input.getD e.loc.start 0) = false ∧
      e.value = .InvalidChar (Char.ofNat (input.getD e.loc.start 0)) ∧
      (∀ j, pos ≤ j → j < e.loc.start → recognizedByte (input.getD j 0) = true) ∧
      ∃ ts, snd = tokens ++ ts ∧ scanInv input pos e.loc.start ts
  | (.panicked, _) => True

/-- Induction hypothesis shape for the scan loop: the post-condition holds
for every resumption of the loop with the given fuel. -/
def LoopIH (input : List Nat) (fuel : Nat) : Prop :=
  ∀ (rest : List Nat) (pos : Nat) (tokens : List Token),
    input.drop pos = rest → pos ≤ input.length → rest.length ≤ fuel →
    OkErrPost input pos tokens (lexLoop reserve_keywords fuel rest pos tokens)

/-- Index of the first byte of the list not matched by any dispatch arm
(the position of the first invalid character), if one exists. -/
def firstBad : List Nat → Option Nat
  | [] => none
  | b :: rest =>
    if recognizedByte b then (firstBad rest).map (fun i => i + 1) else some 0

/-- Token kinds produced by the digit-run rule (lex_number). -/
def numKind : TokenKind → Bool
  | .Number _ => true
  | _ => false

/-- Token kinds produced by the identifier-run rule (lex_identifier):
a generic identifier or one of the two keywords. -/
def identRunKind : TokenKind → Bool
  | .Identifier _ => true
  | .Int => true
  | .Return => true
  | _ => false

/-- The dedicated token kind of each of the eight one-byte
operator/punctuation bytes. -/
def opTokenOf (b : Nat) : TokenKind :=
  if b = 43 then .Plus
  else if b = 45 then .Minus
  else if b = 42 then .Asterisk
  else if b = 47 then .Slash
  else if b = 40 then .LParen
  else if b = 41 then .RParen
  else if b = 59 then .Semicolon
  else .Assignment

lemma digitByte_not_space {b : Nat} (h : isDigitByte b = true) : isSpaceByte b = false := by
  simp only [isDigitByte, Bool.and_eq_true, decide_eq_true_eq] at h
  simp only [isSpaceByte, Bool.or_eq_false_iff, beq_eq_false_iff_ne, ne_eq]
  omega

lemma identByte_not_space {b : Nat} (h : isIdentByte b = true) : isSpaceByte b = false := by
  simp only [isIdentByte, isIdentStartByte, isDigitByte, Bool.or_eq_true, Bool.and_eq_true,
    decide_eq_true_eq, beq_iff_eq] at h
  simp only [isSpaceByte, Bool.or_eq_false_iff, beq_eq_false_iff_ne, ne_eq]
  omega

lemma identStartByte_ident {b : Nat} (h : isIdentStartByte b = true) : isIdentByte b = true := by
  simp [isIdentByte, h]

lemma digitByte_recognized {b : Nat} (h : isDigitByte b = true) : recognizedByte b = true := by
  simp [recognizedByte, h]

lemma identByte_recognized {b : Nat} (h : isIdentByte b = true) : recognizedByte b = true := by
  simp only [isIdentByte, Bool.or_eq_true] at h
  rcases h with h | h <;> simp [recognizedByte, h]

lemma spaceByte_recognized {b : Nat} (h : isSpaceByte b = true) : recognizedByte b = true := by
  simp [recognizedByte, h]

lemma getD_drop_eq (l : List α) : ∀ (k j : Nat) (d : α), (l.drop k).getD j d = l.getD (k + j) d := by
  induction l with
  | nil => intro k j d; simp
  | cons a t ih =>
    intro k j d
    cases k with
    | zero => simp
    | succ k =>
      rw [List.drop_succ_cons, Nat.succ_add, List.getD_cons_succ]
      exact ih k j d

lemma takeWhile_getD_sat (p : α → Bool) :
    ∀ (l : List α) (j : Nat) (d : α), j < (l.takeWhile p).length → p (l.getD j d) = true := by
  intro l
  induction l with
  | nil => intro j d h; simp [List.takeWhile_nil] at h
  | cons a t ih =>
    intro j d h
    by_cases hp : p a
    · rw [List.takeWhile_cons_of_pos hp] at h
      cases j with
      | zero => simpa using hp
      | succ j =>
        rw [List.getD_cons_succ]
        exact ih j d (by simpa using Nat.lt_of_succ_lt_succ (by simpa using h))
    · rw [List.takeWhile_cons_of_neg hp] at h
      simp at h

lemma dropWhile_head_not (p : α → Bool) :
    ∀ (l : List α) (b : α) (t : List α), l.dropWhile p = b :: t → p b = false := by
  intro l
  induction l with
  | nil => intro b t h; simp at h
  | cons a r ih =>
    intro b t h
    by_cases hp : p a
    · rw [List.dropWhile_cons_of_pos hp] at h
      exact ih b t h
    · rw [List.dropWhile_cons_of_neg hp] at h
      cases h
      simpa using hp

lemma dropWhile_eq_drop_len (p : α → Bool) :
    ∀ l : List α, l.dropWhile p = l.drop (l.takeWhile p).length := by
  intro l
  induction l with
  | nil => rfl
  | cons a t ih =>
    by_cases hp : p a
    · rw [List.takeWhile_cons_of_pos hp, List.dropWhile_cons_of_pos hp]
      simpa using ih
    · rw [List.takeWhile_cons_of_neg hp, List.dropWhile_cons_of_neg hp]
      simp

lemma drop_cons_lt {input : List α} {pos : Nat} {b : α} {rest : List α}
    (h : input.drop pos = b :: rest) : pos < input.length := by
  by_contra hle
  push_neg at hle
  rw [List.drop_eq_nil_of_le hle] at h
  cases h

lemma drop_cons_length {input : List α} {pos : Nat} {b : α} {rest : List α}
    (h : input.drop pos = b :: rest) : rest.length + 1 = input.length - pos := by
  have hl := congrArg List.length h
  rw [List.length_drop] at hl
  simpa using hl.symm

lemma drop_cons_getD {input : List α} {pos : Nat} {b : α} {rest : List α}
    (h : input.drop pos = b :: rest) (j : Nat) (d : α) :
    input.getD (pos + j) d = (b :: rest).getD j d := by
  rw [← h, getD_drop_eq]

lemma drop_add_drop (input : List α) (pos k : Nat) :
    input.drop (pos + k) = (input.drop pos).drop k :=
  (List.drop_drop k pos input).symm

lemma runsFitAux_mono : ∀ (l : List Nat) {acc acc' : Nat},
    acc' ≤ acc → runsFitAux acc l = true → runsFitAux acc' l = true := by
  intro l
  induction l with
  | nil =>
    intro acc acc' hle h
    simp only [runsFitAux, decide_eq_true_eq] at h ⊢
    omega
  | cons b rest ih =>
    intro acc acc' hle h
    by_cases hd : isDigitByte b = true
    · simp only [runsFitAux, if_pos hd] at h ⊢
      exact ih (by omega) h
    · simp only [runsFitAux, if_neg hd, Bool.and_eq_true, decide_eq_true_eq] at h ⊢
      exact ⟨by omega, h.2⟩

lemma runsFit_drop : ∀ (l : List Nat) (k : Nat), runsFit l = true → runsFit (l.drop k) = true := by
  intro l
  induction l with
  | nil =>
    intro k h
    rw [List.drop_nil]
    exact h
  | cons b rest ih =>
    intro k h
    cases k with
    | zero => exact h
    | succ k =>
      rw [List.drop_succ_cons]
      apply ih
      unfold runsFit at h ⊢
      simp only [runsFitAux] at h
      by_cases hd : isDigitByte b = true
      · rw [if_pos hd] at h
        exact runsFitAux_mono rest (Nat.zero_le _) h
      · rw [if_neg hd] at h
        simp only [Bool.and_eq_true] at h
        exact h.2

lemma runsFitAux_split : ∀ (l : List Nat) (acc : Nat), runsFitAux acc l = true →
    List.foldl (fun a b => a * 10 + (b - 48)) acc (l.takeWhile isDigitByte) ≤ usizeMax ∧
    runsFit (l.dropWhile isDigitByte) = true := by
  intro l
  induction l with
  | nil =>
    intro acc h
    simp only [runsFitAux, decide_eq_true_eq] at h
    exact ⟨by simpa using h, by decide⟩
  | cons b rest ih =>
    intro acc h
    by_cases hd : isDigitByte b = true
    · rw [List.takeWhile_cons_of_pos hd, List.dropWhile_cons_of_pos hd]
      simp only [runsFitAux, if_pos hd] at h
      have hih := ih _ h
      simpa [List.foldl_cons] using hih
    · rw [List.takeWhile_cons_of_neg hd, List.dropWhile_cons_of_neg hd]
      simp only [runsFitAux, if_neg hd, Bool.and_eq_true, decide_eq_true_eq] at h
      refine ⟨by simpa using h.1, ?_⟩
      unfold runsFit
      simp only [runsFitAux, if_neg hd, Bool.and_eq_true, decide_eq_true_eq]
      exact ⟨by omega, h.2⟩

lemma chainFrom_le : ∀ (ts : List Token) (p : Nat), chainFrom p ts = true →
    ∀ t ∈ ts, p ≤ t.loc.start ∧ t.loc.start < t.loc.stop := by
  intro ts
  induction ts with
  | nil => intro p h t ht; simp at ht
  | cons t0 ts' ih =>
    intro p h t ht
    simp only [chainFrom, Bool.and_eq_true, decide_eq_true_eq] at h
    obtain ⟨⟨h1, h2⟩, h3⟩ := h
    rcases List.mem_cons.mp ht with rfl | ht'
    · exact ⟨h1, h2⟩
    · have := ih t0.loc.stop h3 t ht'
      exact ⟨by omega, this.2⟩

lemma chainFrom_mono : ∀ (ts : List Token) {p p' : Nat},
    p' ≤ p → chainFrom p ts = true → chainFrom p' ts = true := by
  intro ts p p' hle h
  cases ts with
  | nil => rfl
  | cons t0 ts' =>
    simp only [chainFrom, Bool.and_eq_true, decide_eq_true_eq] at h ⊢
    exact ⟨⟨by omega, h.1.2⟩, h.2⟩

lemma scanInv_nil (input : List Nat) (pos B : Nat) (hB : B ≤ pos) : scanInv input pos B [] := by
  refine ⟨rfl, ?_, ?_⟩
  · intro t ht; simp at ht
  · intro i h1 h2; omega

lemma scanInv_cons_tok (input : List Nat) {pos B k : Nat} {kind : TokenKind} {ts : List Token}
    (hk : 1 ≤ k) (hkB : pos + k ≤ B)
    (hnws : ∀ j, j < k → isSpaceByte (input.getD (pos + j) 0) = false)
    (hok : tokenRunOK input ⟨kind, ⟨pos, pos + k⟩⟩)
    (htail : scanInv input (pos + k) B ts) :
    scanInv input pos B (⟨kind, ⟨pos, pos + k⟩⟩ :: ts) := by
  obtain ⟨hc, hm, hcov⟩ := htail
  refine ⟨?_, ?_, ?_⟩
  · simp only [chainFrom, Bool.and_eq_true, decide_eq_true_eq]
    exact ⟨⟨Nat.le_refl pos, Nat.lt_add_of_pos_right (by omega)⟩, hc⟩
  · intro t ht
    rcases List.mem_cons.mp ht with rfl | ht'
    · exact ⟨hkB, hok⟩
    · exact hm t ht'
  · intro i h1 h2
    by_cases hik : i < pos + k
    · constructor
      · intro _
        have hj := hnws (i - pos) (by omega)
        rw [show pos + (i - pos) = i by omega] at hj
        exact hj
      · intro _
        exact ⟨⟨kind, ⟨pos, pos + k⟩⟩, List.mem_cons_self _ _, h1, hik⟩
    · have hiff := hcov i (by omega) h2
      constructor
      · intro hcv
        obtain ⟨t, ht, hti⟩ := hcv
        rcases List.mem_cons.mp ht with rfl | ht'
        · exfalso
          have : i < pos + k := hti.2
          omega
        · exact hiff.mp ⟨t, ht', hti⟩
      · intro hns
        obtain ⟨t, ht', hti⟩ := hiff.mpr hns
        exact ⟨t, List.mem_cons_of_mem _ ht', hti⟩

lemma scanInv_skip (input : List Nat) {pos B k : Nat} {ts : List Token}
    (hk : 1 ≤ k)
    (hws : ∀ j, j < k → isSpaceByte (input.getD (pos + j) 0) = true)
    (htail : scanInv input (pos + k) B ts) :
    scanInv input pos B ts := by
  obtain ⟨hc, hm, hcov⟩ := htail
  refine ⟨chainFrom_mono ts (by omega) hc, fun t ht => hm t ht, ?_⟩
  intro i h1 h2
  by_cases hik : i < pos + k
  · have hwi := hws (i - pos) (by omega)
    rw [show pos + (i - pos) = i by omega] at hwi
    constructor
    · intro hcv
      obtain ⟨t, ht, hti⟩ := hcv
      have hts := (chainFrom_le ts (pos + k) hc t ht).1
      have : t.loc.start ≤ i := hti.1
      omega
    · intro hns
      rw [hwi] at hns
      cases hns
  · exact hcov i (by omega) h2

/-- Facts about the maximal run scanned by recognize_multiple_char: when the
cursor byte itself satisfies the run predicate, the run is nonempty, stays
inside the input, the cursor afterwards sits on the rest of the input, every
run byte satisfies the predicate, and the byte just after the run (if any)
does not. -/
lemma run_facts (input : List Nat) {pos : Nat} {b : Nat} {rest : List Nat} (p : Nat → Bool)
    (hdrop : input.drop pos = b :: rest) (hpb : p b = true) :
    1 ≤ ((b :: rest).takeWhile p).length ∧
    pos + ((b :: rest).takeWhile p).length ≤ input.length ∧
    input.drop (pos + ((b :: rest).takeWhile p).length) = (b :: rest).dropWhile p ∧
    (∀ j, j < ((b :: rest).takeWhile p).length → p (input.getD (pos + j) 0) = true) ∧
    (pos + ((b :: rest).takeWhile p).length < input.length →
      p (input.getD (pos + ((b :: rest).takeWhile p).length) 0) = false) ∧
    ((b :: rest).takeWhile p).length + ((b :: rest).dropWhile p).length = (b :: rest).length := by
  have hlens : ((b :: rest).takeWhile p).length + ((b :: rest).dropWhile p).length
      = (b :: rest).length := by
    have h := congrArg List.length (List.takeWhile_append_dropWhile p (b :: rest))
    rwa [List.length_append] at h
  have hk1 : 1 ≤ ((b :: rest).takeWhile p).length := by
    rw [List.takeWhile_cons_of_pos hpb]
    simp
  have hrl : rest.length + 1 = input.length - pos := drop_cons_length hdrop
  have hplt : pos < input.length := drop_cons_lt hdrop
  have hkle : ((b :: rest).takeWhile p).length ≤ (b :: rest).length := by omega
  have hklen : pos + ((b :: rest).takeWhile p).length ≤ input.length := by
    simp only [List.length_cons] at hkle
    omega
  have hdrop2 : input.drop (pos + ((b :: rest).takeWhile p).length) =
      (b :: rest).dropWhile p := by
    rw [drop_add_drop, hdrop, dropWhile_eq_drop_len]
  refine ⟨hk1, hklen, hdrop2, ?_, ?_, hlens⟩
  · intro j hj
    rw [drop_cons_getD hdrop]
    exact takeWhile_getD_sat p (b :: rest) j 0 hj
  · intro hlt
    rcases hdw : (b :: rest).dropWhile p with _ | ⟨b', t'⟩
    · exfalso
      have := congrArg List.length hdrop2
      rw [hdw, List.length_drop] at this
      simp at this
      omega
    · rw [hdw] at hdrop2
      have hb' := drop_cons_getD hdrop2 0 0
      rw [Nat.add_zero] at hb'
      rw [hb']
      simpa using dropWhile_head_not p (b :: rest) b' t' hdw

lemma OkErrPost_step (input : List Nat) {pos : Nat} (k : Nat) {tokens : List Token}
    {kind : TokenKind} {r : LexResult × List Token}
    (hk : 1 ≤ k) (hkLen : pos + k ≤ input.length)
    (hnws : ∀ j, j < k → isSpaceByte (input.getD (pos + j) 0) = false)
    (hrec : ∀ j, j < k → recognizedByte (input.getD (pos + j) 0) = true)
    (hok : tokenRunOK input ⟨kind, ⟨pos, pos + k⟩⟩)
    (hpost : OkErrPost input (pos + k) (tokens ++ [⟨kind, ⟨pos, pos + k⟩⟩]) r) :
    OkErrPost input pos tokens r := by
  obtain ⟨res, snd⟩ := r
  cases res with
  | ok res =>
    obtain ⟨hsnd, ts, hres, hinv⟩ := hpost
    refine ⟨hsnd, ⟨kind, ⟨pos, pos + k⟩⟩ :: ts, ?_, ?_⟩
    · rw [hres, List.append_assoc]
      rfl
    · exact scanInv_cons_tok input hk hkLen hnws hok hinv
  | error e =>
    obtain ⟨h1, h2, h3, h4, h5, h6, ts, hsnd, hinv⟩ := hpost
    refine ⟨by omega, h2, h3, h4, h5, ?_, ⟨kind, ⟨pos, pos + k⟩⟩ :: ts, ?_, ?_⟩
    · intro j hj1 hj2
      by_cases hjk : j < pos + k
      · have := hrec (j - pos) (by omega)
        rwa [show pos + (j - pos) = j by omega] at this
      · exact h6 j (by omega) hj2
    · rw [hsnd, List.append_assoc]
      rfl
    · exact scanInv_cons_tok input hk h1 hnws hok hinv
  | panicked => trivial

lemma OkErrPost_skip (input : List Nat) {pos : Nat} (k : Nat) {tokens : List Token}
    {r : LexResult × List Token}
    (hk : 1 ≤ k)
    (hws : ∀ j, j < k → isSpaceByte (input.getD (pos + j) 0) = true)
    (hpost : OkErrPost input (pos + k) tokens r) :
    OkErrPost input pos tokens r := by
  obtain ⟨res, snd⟩ := r
  cases res with
  | ok res =>
    obtain ⟨hsnd, ts, hres, hinv⟩ := hpost
    exact ⟨hsnd, ts, hres, scanInv_skip input hk hws hinv⟩
  | error e =>
    obtain ⟨h1, h2, h3, h4, h5, h6, ts, hsnd, hinv⟩ := hpost
    refine ⟨by omega, h2, h3, h4, h5, ?_, ts, hsnd, scanInv_skip input hk hws hinv⟩
    intro j hj1 hj2
    by_cases hjk : j < pos + k
    · have := hws (j - pos) (by omega)
      rw [show pos + (j - pos) = j by omega] at this
      exact spaceByte_recognized this
    · exact h6 j (by omega) hj2
  | panicked => trivial

lemma OkErrPost_base (input : List Nat) {pos : Nat} {tokens : List Token}
    (hdrop : input.drop pos = []) :
    OkErrPost input pos tokens (.ok tokens, tokens) := by
  refine ⟨rfl, [], by simp, scanInv_nil input pos input.length ?_⟩
  exact List.drop_eq_nil_iff.mp hdrop

lemma keyword_kind_cases (s : String) :
    (List.lookup s reserve_keywords).getD (TokenKind.Identifier s) = TokenKind.Int ∨
    (List.lookup s reserve_keywords).getD (TokenKind.Identifier s) = TokenKind.Return ∨
    (List.lookup s reserve_keywords).getD (TokenKind.Identifier s) = TokenKind.Identifier s := by
  cases h1 : s == "int" with
  | true => simp [List.lookup, reserve_keywords, h1]
  | false =>
    cases h2 : s == "return" with
    | true => simp [List.lookup, reserve_keywords, h1, h2]
    | false => simp [List.lookup, reserve_keywords, h1, h2]

lemma tokenRunOK_identKind (input : List Nat) {kind : TokenKind} {lo hi : Nat} {s : String}
    (hkind : kind = TokenKind.Int ∨ kind = TokenKind.Return ∨ kind = TokenKind.Identifier s)
    (h1 : ∀ j, lo ≤ j → j < hi → isIdentByte (input.getD j 0) = true)
    (h2 : hi < input.length → isIdentByte (input.getD hi 0) = false) :
    tokenRunOK input ⟨kind, ⟨lo, hi⟩⟩ := by
  rcases hkind with rfl | rfl | rfl <;> exact ⟨h1, h2⟩

lemma tokenRunOK_number (input : List Nat) {n lo hi : Nat}
    (h1 : ∀ j, lo ≤ j → j < hi → isDigitByte (input.getD j 0) = true)
    (h2 : hi < input.length → isDigitByte (input.getD hi 0) = false) :
    tokenRunOK input ⟨.Number n, ⟨lo, hi⟩⟩ :=
  ⟨h1, h2⟩

lemma op_branch (input : List Nat) {fuel pos : Nat} {b : Nat} {rest' : List Nat}
    {tokens : List Token} (kind : TokenKind)
    (hdrop : input.drop pos = b :: rest') (hfuel : (b :: rest').length ≤ fuel + 1)
    (hok : tokenRunOK input ⟨kind, ⟨pos, pos + 1⟩⟩)
    (hbrec : recognizedByte b = true) (hbws : isSpaceByte b = false)
    (ih : LoopIH input fuel) :
    OkErrPost input pos tokens
      (lexLoop reserve_keywords fuel rest' (pos + 1) (tokens ++ [⟨kind, ⟨pos, pos + 1⟩⟩])) := by
  have hplt : pos < input.length := drop_cons_lt hdrop
  have hbyte : input.getD pos 0 = b := by
    have h := drop_cons_getD hdrop 0 0
    rwa [Nat.add_zero] at h
  have hdrop1 : input.drop (pos + 1) = rest' := by
    rw [drop_add_drop, hdrop, List.drop_succ_cons, List.drop_zero]
  refine OkErrPost_step input 1 (by omega) (by omega) ?_ ?_ hok ?_
  · intro j hj
    have hj0 : j = 0 := by omega
    subst hj0
    rw [Nat.add_zero, hbyte]
    exact hbws
  · intro j hj
    have hj0 : j = 0 := by omega
    subst hj0
    rw [Nat.add_zero, hbyte]
    exact hbrec
  · apply ih rest' (pos + 1) _ hdrop1 (by omega)
    simp only [List.length_cons] at hfuel
    omega

lemma run_branch (input : List Nat) {fuel pos : Nat} {b : Nat} {rest' : List Nat}
    {tokens : List Token} (p : Nat → Bool) (kind : TokenKind)
    (hdrop : input.drop pos = b :: rest') (hfuel : (b :: rest').length ≤ fuel + 1)
    (hpb : p b = true)
    (hcls : ∀ x, p x = true → isSpaceByte x = false ∧ recognizedByte x = true)
    (hkind : (∀ j, j < ((b :: rest').takeWhile p).length →
                p (input.getD (pos + j) 0) = true) →
             (pos + ((b :: rest').takeWhile p).length < input.length →
                p (input.getD (pos + ((b :: rest').takeWhile p).length) 0) = false) →
             tokenRunOK input ⟨kind, ⟨pos, pos + ((b :: rest').takeWhile p).length⟩⟩)
    (ih : LoopIH input fuel) :
    OkErrPost input pos tokens
      (lexLoop reserve_keywords fuel ((b :: rest').dropWhile p)
        (pos + ((b :: rest').takeWhile p).length)
        (tokens ++ [⟨kind, ⟨pos, pos + ((b :: rest').takeWhile p).length⟩⟩])) := by
  obtain ⟨hk1, hklen, hdropk, hsat, hbound, hlens⟩ := run_facts input p hdrop hpb
  refine OkErrPost_step input ((b :: rest').takeWhile p).length hk1 hklen ?_ ?_
    (hkind hsat hbound) ?_
  · intro j hj
    exact (hcls _ (hsat j hj)).1
  · intro j hj
    exact (hcls _ (hsat j hj)).2
  · apply ih _ _ _ hdropk (by omega)
    simp only [List.length_cons] at hfuel hlens
    omega

lemma ws_branch (input : List Nat) {fuel pos : Nat} {b : Nat} {rest' : List Nat}
    {tokens : List Token}
    (hdrop : input.drop pos = b :: rest') (hfuel : (b :: rest').length ≤ fuel + 1)
    (hpb : isSpaceByte b = true)
    (ih : LoopIH input fuel) :
    OkErrPost input pos tokens
      (lexLoop reserve_keywords fuel ((b :: rest').dropWhile isSpaceByte)
        (pos + ((b :: rest').takeWhile isSpaceByte).length) tokens) := by
  obtain ⟨hk1, hklen, hdropk, hsat, hbound, hlens⟩ := run_facts input isSpaceByte hdrop hpb
  refine OkErrPost_skip input ((b :: rest').takeWhile isSpaceByte).length hk1 hsat ?_
  apply ih _ _ _ hdropk (by omega)
  simp only [List.length_cons] at hfuel hlens
  omega

lemma lexLoop_nil (keywords : List (String × TokenKind)) (fuel pos : Nat)
    (tokens : List Token) :
    lexLoop keywords fuel [] pos tokens = (.ok tokens, tokens) := by
  cases fuel <;> rfl

lemma lexLoop_cons (keywords : List (String × TokenKind)) (fuel : Nat) (b : Nat)
    (rest : List Nat) (pos : Nat) (tokens : List Token) :
    lexLoop keywords (fuel + 1) (b :: rest) pos tokens =
    (if b = 43 then
      lexLoop keywords fuel rest (pos + 1) (tokens ++ [⟨.Plus, ⟨pos, pos + 1⟩⟩])
    else if b = 45 then
      lexLoop keywords fuel rest (pos + 1) (tokens ++ [⟨.Minus, ⟨pos, pos + 1⟩⟩])
    else if b = 42 then
      lexLoop keywords fuel rest (pos + 1) (tokens ++ [⟨.Asterisk, ⟨pos, pos + 1⟩⟩])
    else if b = 47 then
      lexLoop keywords fuel rest (pos + 1) (tokens ++ [⟨.Slash, ⟨pos, pos + 1⟩⟩])
    else if b = 40 then
      lexLoop keywords fuel rest (pos + 1) (tokens ++ [⟨.LParen, ⟨pos, pos + 1⟩⟩])
    else if b = 41 then
      lexLoop keywords fuel rest (pos + 1) (tokens ++ [⟨.RParen, ⟨pos, pos + 1⟩⟩])
    else if isDigitByte b then
      if digitsToNat ((b :: rest).takeWhile isDigitByte) ≤ usizeMax then
        lexLoop keywords fuel ((b :: rest).dropWhile isDigitByte)
          (pos + ((b :: rest).takeWhile isDigitByte).length)
          (tokens ++ [⟨.Number (digitsToNat ((b :: rest).takeWhile isDigitByte)),
            ⟨pos, pos + ((b :: rest).takeWhile isDigitByte).length⟩⟩])
      else
        (.panicked, tokens)
    else if isIdentStartByte b then
      lexLoop keywords fuel ((b :: rest).dropWhile isIdentByte)
        (pos + ((b :: rest).takeWhile isIdentByte).length)
        (tokens ++
          [⟨(List.lookup (bytesToString ((b :: rest).takeWhile isIdentByte)) keywords).getD
              (.Identifier (bytesToString ((b :: rest).takeWhile isIdentByte))),
            ⟨pos, pos + ((b :: rest).takeWhile isIdentByte).length⟩⟩])
    else if b = 59 then
      lexLoop keywords fuel rest (pos + 1) (tokens ++ [⟨.Semicolon, ⟨pos, pos + 1⟩⟩])
    else if b = 61 then
      lexLoop keywords fuel rest (pos + 1) (tokens ++ [⟨.Assignment, ⟨pos, pos + 1⟩⟩])
    else if isSpaceByte b then
      lexLoop keywords fuel ((b :: rest).dropWhile isSpaceByte)
        (pos + ((b :: rest).takeWhile isSpaceByte).length) tokens
    else
      (.error ⟨.InvalidChar (Char.ofNat b), ⟨pos, pos + 1⟩⟩, tokens)) := rfl

/-- Master invariant of the scan loop: started anywhere inside the input
with enough fuel, the loop's outcome satisfies `OkErrPost`. -/
lemma lexLoop_inv (input : List Nat) : ∀ (fuel : Nat), LoopIH input fuel := by
  intro fuel
  induction fuel with
  | zero =>
    intro rest pos tokens hdrop hpos hfuel
    cases rest with
    | nil =>
      rw [lexLoop_nil]
      exact OkErrPost_base input hdrop
    | cons b rest' => simp at hfuel
  | succ fuel ih =>
    intro rest pos tokens hdrop hpos hfuel
    cases rest with
    | nil =>
      rw [lexLoop_nil]
      exact OkErrPost_base input hdrop
    | cons b rest' =>
      have hbyte : input.getD pos 0 = b := by
        have h := drop_cons_getD hdrop 0 0
        rwa [Nat.add_zero] at h
      rw [lexLoop_cons]
      by_cases hb43 : b = 43
      · rw [if_pos hb43]
        exact op_branch input .Plus hdrop hfuel
          ⟨by rw [hbyte]; exact hb43, rfl⟩
          (by rw [hb43]; decide) (by rw [hb43]; decide) ih
      rw [if_neg hb43]
      by_cases hb45 : b = 45
      · rw [if_pos hb45]
        exact op_branch input .Minus hdrop hfuel
          ⟨by rw [hbyte]; exact hb45, rfl⟩
          (by rw [hb45]; decide) (by rw [hb45]; decide) ih
      rw [if_neg hb45]
      by_cases hb42 : b = 42
      · rw [if_pos hb42]
        exact op_branch input .Asterisk hdrop hfuel
          ⟨by rw [hbyte]; exact hb42, rfl⟩
          (by rw [hb42]; decide) (by rw [hb42]; decide) ih
      rw [if_neg hb42]
      by_cases hb47 : b = 47
      · rw [if_pos hb47]
        exact op_branch input .Slash hdrop hfuel
          ⟨by rw [hbyte]; exact hb47, rfl⟩
          (by rw [hb47]; decide) (by rw [hb47]; decide) ih
      rw [if_neg hb47]
      by_cases hb40 : b = 40
      · rw [if_pos hb40]
        exact op_branch input .LParen hdrop hfuel
          ⟨by rw [hbyte]; exact hb40, rfl⟩
          (by rw [hb40]; decide) (by rw [hb40]; decide) ih
      rw [if_neg hb40]
      by_cases hb41 : b = 41
      · rw [if_pos hb41]
        exact op_branch input .RParen hdrop hfuel
          ⟨by rw [hbyte]; exact hb41, rfl⟩
          (by rw [hb41]; decide) (by rw [hb41]; decide) ih
      rw [if_neg hb41]
      by_cases hdig : isDigitByte b = true
      · rw [if_pos hdig]
        by_cases hfit : digitsToNat ((b :: rest').takeWhile isDigitByte) ≤ usizeMax
        · rw [if_pos hfit]
          refine run_branch input isDigitByte
            (.Number (digitsToNat ((b :: rest').takeWhile isDigitByte))) hdrop hfuel hdig
            (fun x hx => ⟨digitByte_not_space hx, digitByte_recognized hx⟩) ?_ ih
          intro hsat hbound
          refine tokenRunOK_number input ?_ hbound
          intro j hj1 hj2
          have h := hsat (j - pos) (by omega)
          rwa [show pos + (j - pos) = j by omega] at h
        · rw [if_neg hfit]
          trivial
      rw [if_neg hdig]
      by_cases hids : isIdentStartByte b = true
      · rw [if_pos hids]
        refine run_branch input isIdentByte
          ((List.lookup (bytesToString ((b :: rest').takeWhile isIdentByte))
              reserve_keywords).getD
            (.Identifier (bytesToString ((b :: rest').takeWhile isIdentByte))))
          hdrop hfuel (identStartByte_ident hids)
          (fun x hx => ⟨identByte_not_space hx, identByte_recognized hx⟩) ?_ ih
        intro hsat hbound
        refine tokenRunOK_identKind input (keyword_kind_cases _) ?_ hbound
        intro j hj1 hj2
        have h := hsat (j - pos) (by omega)
        rwa [show pos + (j - pos) = j by omega] at h
      rw [if_neg hids]
      by_cases hb59 : b = 59
      · rw [if_pos hb59]
        exact op_branch input .Semicolon hdrop hfuel
          ⟨by rw [hbyte]; exact hb59, rfl⟩
          (by rw [hb59]; decide) (by rw [hb59]; decide) ih
      rw [if_neg hb59]
      by_cases hb61 : b = 61
      · rw [if_pos hb61]
        exact op_branch input .Assignment hdrop hfuel
          ⟨by rw [hbyte]; exact hb61, rfl⟩
          (by rw [hb61]; decide) (by rw [hb61]; decide) ih
      rw [if_neg hb61]
      by_cases hsp : isSpaceByte b = true
      · rw [if_pos hsp]
        exact ws_branch input hdrop hfuel hsp ih
      rw [if_neg hsp]
      simp only [Bool.not_eq_true] at hdig hids hsp
      refine ⟨Nat.le_refl pos, drop_cons_lt hdrop, rfl, ?_, ?_, ?_, [], by simp,
        scanInv_nil input pos pos (Nat.le_refl pos)⟩
      · rw [hbyte]
        simp [recognizedByte, hb43, hb45, hb42, hb47, hb40, hb41, hdig, hids, hb59, hb61, hsp]
      · rw [hbyte]
      · intro j hj1 hj2
        have hx : j < pos := hj2
        omega

lemma dropWhile_length_le_of_pos (p : Nat → Bool) (b : Nat) (rest : List Nat)
    (hpb : p b = true) :
    ((b :: rest).dropWhile p).length ≤ rest.length := by
  rw [dropWhile_eq_drop_len, List.length_drop, List.takeWhile_cons_of_pos hpb]
  simp

/-- The scan loop panics only on an overflowing digit run: with every
maximal digit run of the unread input fitting in usize, the outcome is
never a panic. -/
lemma lexLoop_no_panic (keywords : List (String × TokenKind)) :
    ∀ (fuel : Nat) (rest : List Nat) (pos : Nat) (tokens : List Token),
    rest.length ≤ fuel → runsFit rest = true →
    (lexLoop keywords fuel rest pos tokens).fst ≠ .panicked := by
  intro fuel
  induction fuel with
  | zero =>
    intro rest pos tokens hfuel hfit
    cases rest with
    | nil => simp [lexLoop_nil]
    | cons b rest' => simp at hfuel
  | succ fuel ih =>
    intro rest pos tokens hfuel hfit
    cases rest with
    | nil => simp [lexLoop_nil]
    | cons b rest' =>
      have hfuel' : rest'.length ≤ fuel := by
        simp only [List.length_cons] at hfuel
        omega
      have hfit1 : runsFit rest' = true := by
        have h := runsFit_drop (b :: rest') 1 hfit
        exact h
      rw [lexLoop_cons]
      by_cases hb43 : b = 43
      · rw [if_pos hb43]; exact ih rest' (pos + 1) _ hfuel' hfit1
      rw [if_neg hb43]
      by_cases hb45 : b = 45
      · rw [if_pos hb45]; exact ih rest' (pos + 1) _ hfuel' hfit1
      rw [if_neg hb45]
      by_cases hb42 : b = 42
      · rw [if_pos hb42]; exact ih rest' (pos + 1) _ hfuel' hfit1
      rw [if_neg hb42]
      by_cases hb47 : b = 47
      · rw [if_pos hb47]; exact ih rest' (pos + 1) _ hfuel' hfit1
      rw [if_neg hb47]
      by_cases hb40 : b = 40
      · rw [if_pos hb40]; exact ih rest' (pos + 1) _ hfuel' hfit1
      rw [if_neg hb40]
      by_cases hb41 : b = 41
      · rw [if_pos hb41]; exact ih rest' (pos + 1) _ hfuel' hfit1
      rw [if_neg hb41]
      by_cases hdig : isDigitByte b = true
      · rw [if_pos hdig]
        obtain ⟨hval, htail⟩ := runsFitAux_split (b :: rest') 0 hfit
        have hval' : digitsToNat ((b :: rest').takeWhile isDigitByte) ≤ usizeMax := hval
        rw [if_pos hval']
        exact ih _ _ _ (le_trans (dropWhile_length_le_of_pos _ _ _ hdig) hfuel') htail
      rw [if_neg hdig]
      by_cases hids : isIdentStartByte b = true
      · rw [if_pos hids]
        refine ih _ _ _
          (le_trans (dropWhile_length_le_of_pos _ _ _ (identStartByte_ident hids)) hfuel') ?_
        rw [dropWhile_eq_drop_len]
        exact runsFit_drop _ _ hfit
      rw [if_neg hids]
      by_cases hb59 : b = 59
      · rw [if_pos hb59]; exact ih rest' (pos + 1) _ hfuel' hfit1
      rw [if_neg hb59]
      by_cases hb61 : b = 61
      · rw [if_pos hb61]; exact ih rest' (pos + 1) _ hfuel' hfit1
      rw [if_neg hb61]
      by_cases hsp : isSpaceByte b = true
      · rw [if_pos hsp]
        refine ih _ _ _
          (le_trans (dropWhile_length_le_of_pos _ _ _ hsp) hfuel') ?_
        rw [dropWhile_eq_drop_len]
        exact runsFit_drop _ _ hfit
      rw [if_neg hsp]
      simp

/-- One full scan satisfies the loop post-condition. -/
lemma lexScan_post (input : List Nat) : OkErrPost input 0 [] (lexScan input) :=
  lexLoop_inv input input.length input 0 [] rfl (Nat.zero_le _) (Nat.le_refl _)

/-- On Ok, the returned token list is also the tokens field and satisfies
the scan invariant over the whole input. -/
lemma lex_ok_inv (input : List Nat) (ts : List Token) (h : lexResult input = .ok ts) :
    lexTokensField input = ts ∧ scanInv input 0 input.length ts := by
  have hpost := lexScan_post input
  rcases hscan : lexScan input with ⟨res, snd⟩
  rw [hscan] at hpost
  have hres : res = .ok ts := by
    have hx : lexResult input = res := by rw [lexResult, hscan]
    rw [← hx, h]
  subst hres
  obtain ⟨hsnd, ts', hts', hinv⟩ := hpost
  rw [List.nil_append] at hts'
  subst hts'
  constructor
  · show (lexScan input).snd = ts
    rw [hscan]
    exact hsnd
  · exact hinv

/-- On Err, the error wraps the first unclassifiable byte (as a char) with
its exact one-byte span inside the input, and the tokens field holds the
tokens recognized before that byte, satisfying the scan invariant over the
scanned prefix. -/
lemma lex_err_inv (input : List Nat) (e : LexError) (h : lexResult input = .error e) :
    e.loc.start < input.length ∧ e.loc.stop = e.loc.start + 1 ∧
    recognizedByte (input.getD e.loc.start 0) = false ∧
    e.value = .InvalidChar (Char.ofNat (input.getD e.loc.start 0)) ∧
    (∀ j, j < e.loc.start → recognizedByte (input.getD j 0) = true) ∧
    lexTokensField input = [] ++ lexTokensField input ∧
    scanInv input 0 e.loc.start (lexTokensField input) := by
  have hpost := lexScan_post input
  rcases hscan : lexScan input with ⟨res, snd⟩
  rw [hscan] at hpost
  have hres : res = .error e := by
    have hx : lexResult input = res := by rw [lexResult, hscan]
    rw [← hx, h]
  subst hres
  obtain ⟨h1, h2, h3, h4, h5, h6, ts, hsnd, hinv⟩ := hpost
  rw [List.nil_append] at hsnd
  have hfield : lexTokensField input = ts := by
    show (lexScan input).snd = ts
    rw [hscan]
    exact hsnd
  refine ⟨h2, h3, h4, h5, fun j hj => h6 j (Nat.zero_le j) hj, by simp, ?_⟩
  rw [hfield]
  exact hinv

/-- A successful scan classified every byte of the input: whenever lex
returns Ok, each byte was matched by some dispatch arm. -/
lemma lex_ok_all_recognized (input : List Nat) (ts : List Token)
    (h : lexResult input = .ok ts) :
    ∀ i, i < input.length → recognizedByte (input.getD i 0) = true := by
  obtain ⟨hfield, hchain, hmem, hcov⟩ := lex_ok_inv input ts h
  intro i hi
  by_cases hws : isSpaceByte (input.getD i 0) = true
  · exact spaceByte_recognized hws
  · have hws' : isSpaceByte (input.getD i 0) = false := by
      simpa using hws
    have hcv : covered ts i := (hcov i (Nat.zero_le i) hi).mpr hws'
    obtain ⟨t, ht, hti⟩ := hcv
    obtain ⟨hstop, hok⟩ := hmem t ht
    obtain ⟨tv, tl⟩ := t
    cases tv with
    | Number n => exact digitByte_recognized (hok.1 i hti.1 hti.2)
    | Identifier s => exact identByte_recognized (hok.1 i hti.1 hti.2)
    | Int => exact identByte_recognized (hok.1 i hti.1 hti.2)
    | Return => exact identByte_recognized (hok.1 i hti.1 hti.2)
    | Plus =>
      have h2 : i < tl.stop := hti.2
      have h1 : tl.start ≤ i := hti.1
      have hop1 : input.getD tl.start 0 = _ := hok.1
      have hop2 : tl.stop = tl.start + 1 := hok.2
      rw [hop2] at h2
      rw [show i = tl.start by omega, hop1]
      decide
    | Minus =>
      have h2 : i < tl.stop := hti.2
      have h1 : tl.start ≤ i := hti.1
      have hop1 : input.getD tl.start 0 = _ := hok.1
      have hop2 : tl.stop = tl.start + 1 := hok.2
      rw [hop2] at h2
      rw [show i = tl.start by omega, hop1]
      decide
    | Asterisk =>
      have h2 : i < tl.stop := hti.2
      have h1 : tl.start ≤ i := hti.1
      have hop1 : input.getD tl.start 0 = _ := hok.1
      have hop2 : tl.stop = tl.start + 1 := hok.2
      rw [hop2] at h2
      rw [show i = tl.start by omega, hop1]
      decide
    | Slash =>
      have h2 : i < tl.stop := hti.2
      have h1 : tl.start ≤ i := hti.1
      have hop1 : input.getD tl.start 0 = _ := hok.1
      have hop2 : tl.stop = tl.start + 1 := hok.2
      rw [hop2] at h2
      rw [show i = tl.start by omega, hop1]
      decide
    | LParen =>
      have h2 : i < tl.stop := hti.2
      have h1 : tl.start ≤ i := hti.1
      have hop1 : input.getD tl.start 0 = _ := hok.1
      have hop2 : tl.stop = tl.start + 1 := hok.2
      rw [hop2] at h2
      rw [show i = tl.start by omega, hop1]
      decide
    | RParen =>
      have h2 : i < tl.stop := hti.2
      have h1 : tl.start ≤ i := hti.1
      have hop1 : input.getD tl.start 0 = _ := hok.1
      have hop2 : tl.stop = tl.start + 1 := hok.2
      rw [hop2] at h2
      rw [show i = tl.start by omega, hop1]
      decide
    | Assignment =>
      have h2 : i < tl.stop := hti.2
      have h1 : tl.start ≤ i := hti.1
      have hop1 : input.getD tl.start 0 = _ := hok.1
      have hop2 : tl.stop = tl.start + 1 := hok.2
      rw [hop2] at h2
      rw [show i = tl.start by omega, hop1]
      decide
    | Semicolon =>
      have h2 : i < tl.stop := hti.2
      have h1 : tl.start ≤ i := hti.1
      have hop1 : input.getD tl.start 0 = _ := hok.1
      have hop2 : tl.stop = tl.start + 1 := hok.2
      rw [hop2] at h2
      rw [show i = tl.start by omega, hop1]
      decide

lemma firstBad_spec : ∀ (l : List Nat) (i0 : Nat), firstBad l = some i0 →
    i0 < l.length ∧ recognizedByte (l.getD i0 0) = false ∧
    ∀ j, j < i0 → recognizedByte (l.getD j 0) = true := by
  intro l
  induction l with
  | nil => intro i0 h; simp [firstBad] at h
  | cons b rest ih =>
    intro i0 h
    by_cases hr : recognizedByte b = true
    · simp only [firstBad, if_pos hr] at h
      obtain ⟨j0, hj0, hi0⟩ := Option.map_eq_some'.mp h
      subst hi0
      obtain ⟨ha, hb2, hc⟩ := ih j0 hj0
      refine ⟨by simp; omega, ?_, ?_⟩
      · rw [List.getD_cons_succ]
        exact hb2
      · intro j hj
        cases j with
        | zero => rw [List.getD_cons_zero]; exact hr
        | succ j => rw [List.getD_cons_succ]; exact hc j (by omega)
    · simp only [firstBad, if_neg hr] at h
      injection h with h0
      subst h0
      refine ⟨by simp, ?_, ?_⟩
      · rw [List.getD_cons_zero]
        simpa using hr
      · intro j hj
        omega

/-- When every maximal digit run of the input fits in usize, the scan never
panics. -/
lemma lex_not_panicked (input : List Nat) (hfit : runsFit input = true) :
    lexResult input ≠ .panicked :=
  lexLoop_no_panic reserve_keywords input.length input 0 [] (Nat.le_refl _) hfit

lemma chainFrom_cons (p : Nat) (t : Token) (ts : List Token) :
    chainFrom p (t :: ts) =
      (decide (p ≤ t.loc.start) && decide (t.loc.start < t.loc.stop) &&
        chainFrom t.loc.stop ts) := rfl

lemma getD_mem_of_lt (l : List α) (i : Nat) (d : α) (h : i < l.length) : l.getD i d ∈ l := by
  induction l generalizing i with
  | nil => simp at h
  | cons a t ih =>
    cases i with
    | zero => simp
    | succ i =>
      rw [List.getD_cons_succ]
      refine List.mem_cons_of_mem _ (ih i ?_)
      simp only [List.length_cons] at h
      omega

lemma opByte_not_space {b : Nat} (h : isOpByte b = true) : isSpaceByte b = false := by
  cases hd : isSpaceByte b
  · rfl
  · exfalso
    simp only [isOpByte, Bool.or_eq_true, beq_iff_eq] at h
    simp only [isSpaceByte, Bool.or_eq_true, beq_iff_eq] at hd
    omega

lemma opByte_not_digit {b : Nat} (h : isOpByte b = true) : isDigitByte b = false := by
  cases hd : isDigitByte b
  · rfl
  · exfalso
    simp only [isOpByte, Bool.or_eq_true, beq_iff_eq] at h
    simp only [isDigitByte, Bool.and_eq_true, decide_eq_true_eq] at hd
    omega

lemma opByte_not_ident {b : Nat} (h : isOpByte b = true) : isIdentByte b = false := by
  cases hd : isIdentByte b
  · rfl
  · exfalso
    simp only [isOpByte, Bool.or_eq_true, beq_iff_eq] at h
    simp only [isIdentByte, isIdentStartByte, isDigitByte, Bool.or_eq_true, Bool.and_eq_true,
      decide_eq_true_eq, beq_iff_eq] at hd
    omega

lemma tokenRunOK_num_facts {input : List Nat} {t : Token} (hok : tokenRunOK input t)
    (hn : numKind t.value = true) :
    (∀ j, t.loc.start ≤ j → j < t.loc.stop → isDigitByte (input.getD j 0) = true) ∧
    (t.loc.stop < input.length → isDigitByte (input.getD t.loc.stop 0) = false) := by
  obtain ⟨tv, tl⟩ := t
  cases tv
  all_goals (try exact hok)
  all_goals exact absurd hn (by simp [numKind])

lemma tokenRunOK_ident_facts {input : List Nat} {t : Token} (hok : tokenRunOK input t)
    (hn : identRunKind t.value = true) :
    (∀ j, t.loc.start ≤ j → j < t.loc.stop → isIdentByte (input.getD j 0) = true) ∧
    (t.loc.stop < input.length → isIdentByte (input.getD t.loc.stop 0) = false) := by
  obtain ⟨tv, tl⟩ := t
  cases tv
  all_goals (try exact hok)
  all_goals exact absurd hn (by simp [identRunKind])

/-- From the scan invariant: consecutive tokens with abutting spans are
never both digit-run tokens and never both identifier-run tokens, because
each run is maximal (the byte right after a run does not extend it, yet a
second token of the same run kind would have to start with exactly such a
byte). -/
lemma chain'_no_same_run (input : List Nat) :
    ∀ (ts : List Token) (p : Nat),
    chainFrom p ts = true →
    (∀ t ∈ ts, t.loc.stop ≤ input.length ∧ tokenRunOK input t) →
    List.Chain' (fun t1 t2 => t1.loc.stop = t2.loc.start →
      (numKind t1.value && numKind t2.value) = false ∧
      (identRunKind t1.value && identRunKind t2.value) = false) ts := by
  intro ts
  induction ts with
  | nil => intro p h hm; exact List.chain'_nil
  | cons t1 ts' ih =>
    intro p h hm
    cases ts' with
    | nil => simp
    | cons t2 ts'' =>
      rw [chainFrom_cons] at h
      simp only [Bool.and_eq_true, decide_eq_true_eq] at h
      obtain ⟨⟨hp1, hlt1⟩, h2⟩ := h
      have h2' := h2
      rw [chainFrom_cons] at h2'
      simp only [Bool.and_eq_true, decide_eq_true_eq] at h2'
      obtain ⟨⟨hp2, hlt2⟩, -⟩ := h2'
      refine List.Chain'.cons ?_
        (ih t1.loc.stop h2 (fun t ht => hm t (List.mem_cons_of_mem _ ht)))
      intro hadj
      have hok1 := (hm t1 (by simp)).2
      have hok2 := (hm t2 (by simp)).2
      have hlen2 : t2.loc.stop ≤ input.length := (hm t2 (by simp)).1
      constructor
      · by_cases hn1 : numKind t1.value = true
        · by_cases hn2 : numKind t2.value = true
          · exfalso
            obtain ⟨hf1, hb1⟩ := tokenRunOK_num_facts hok1 hn1
            obtain ⟨hf2, hb2⟩ := tokenRunOK_num_facts hok2 hn2
            have hd2 : isDigitByte (input.getD t2.loc.start 0) = true :=
              hf2 _ (Nat.le_refl _) hlt2
            have hstoplen : t1.loc.stop < input.length := by omega
            have hd1 := hb1 hstoplen
            rw [hadj, hd2] at hd1
            simp at hd1
          · simp only [Bool.not_eq_true] at hn2
            simp [hn2]
        · simp only [Bool.not_eq_true] at hn1
          simp [hn1]
      · by_cases hn1 : identRunKind t1.value = true
        · by_cases hn2 : identRunKind t2.value = true
          · exfalso
            obtain ⟨hf1, hb1⟩ := tokenRunOK_ident_facts hok1 hn1
            obtain ⟨hf2, hb2⟩ := tokenRunOK_ident_facts hok2 hn2
            have hd2 : isIdentByte (input.getD t2.loc.start 0) = true :=
              hf2 _ (Nat.le_refl _) hlt2
            have hstoplen : t1.loc.stop < input.length := by omega
            have hd1 := hb1 hstoplen
            rw [hadj, hd2] at hd1
            simp at hd1
          · simp only [Bool.not_eq_true] at hn2
            simp [hn2]
        · simp only [Bool.not_eq_true] at hn1
          simp [hn1]

/-- C1 (counterexample): the digit run "18446744073709551616" (the 20
decimal digits of 2^64) consists solely of recognized characters, yet lex
does not return Ok: the parse().unwrap() of lex_number panics because the
value exceeds usize::MAX. -/
theorem C1_claim_counterexample :
    (∀ b ∈ [49, 56, 52, 52, 54, 55, 52, 52, 48, 55, 51, 55, 48, 57, 53, 53, 49, 54, 49, 54],
      recognizedByte b = true) ∧
    lexResult [49, 56, 52, 52, 54, 55, 52, 52, 48, 55, 51, 55, 48, 57, 53, 53, 49, 54, 49, 54] =
      .panicked ∧
    ¬∃ ts, lexResult [49, 56, 52, 52, 54, 55, 52, 52, 48, 55, 51, 55, 48, 57, 53, 53, 49, 54,
      49, 54] = .ok ts := by
  refine ⟨by decide, by decide, ?_⟩
  rintro ⟨ts, hts⟩
  rw [show lexResult [49, 56, 52, 52, 54, 55, 52, 52, 48, 55, 51, 55, 48, 57, 53, 53, 49, 54,
    49, 54] = .panicked from by decide] at hts
  cases hts

/-- C1 (amended): for every input consisting solely of recognized
characters in which the value of every maximal decimal-digit run fits in
usize, lex returns Ok with tokens in strict left-to-right source order
whose spans are pairwise non-overlapping and, together with the skipped
whitespace runs, exactly tile the byte range [0, input length): every byte
offset is covered by a token span exactly when it does not hold a
whitespace byte, and by at most one token span. -/
theorem lex_coverage_tiling (input : List Nat)
    (hrec : ∀ b ∈ input, recognizedByte b = true)
    (hfit : runsFit input = true) :
    ∃ ts, lexResult input = .ok ts ∧ chainFrom 0 ts = true ∧
      (∀ t ∈ ts, t.loc.stop ≤ input.length) ∧
      (∀ i, i < input.length → (covered ts i ↔ isSpaceByte (input.getD i 0) = false)) := by
  have hnp := lex_not_panicked input hfit
  cases hres : lexResult input with
  | ok ts =>
    obtain ⟨hf, hchain, hmem, hcov⟩ := lex_ok_inv input ts hres
    exact ⟨ts, rfl, hchain, fun t ht => (hmem t ht).1, fun i hi => hcov i (Nat.zero_le i) hi⟩
  | error e =>
    exfalso
    obtain ⟨hlt, _, hbad, _⟩ := lex_err_inv input e hres
    have hgood := hrec (input.getD e.loc.start 0) (getD_mem_of_lt input e.loc.start 0 hlt)
    rw [hgood] at hbad
    cases hbad
  | panicked => exact absurd hres hnp

/-- C1 (witness): the amended coverage theorem applied to "a = 3;". -/
theorem lex_coverage_tiling_witness :
    (∀ b ∈ [97, 32, 61, 32, 51, 59], recognizedByte b = true) ∧
    runsFit [97, 32, 61, 32, 51, 59] = true ∧
    ∃ ts, lexResult [97, 32, 61, 32, 51, 59] = .ok ts ∧ chainFrom 0 ts = true ∧
      (∀ t ∈ ts, t.loc.stop ≤ [97, 32, 61, 32, 51, 59].length) ∧
      (∀ i, i < [97, 32, 61, 32, 51, 59].length →
        (covered ts i ↔ isSpaceByte ([97, 32, 61, 32, 51, 59].getD i 0) = false)) :=
  ⟨by decide, by decide, lex_coverage_tiling [97, 32, 61, 32, 51, 59] (by decide) (by decide)⟩

/-- C2 (counterexample): "18446744073709551616$" contains the
unclassifiable byte '$' (36), yet lex does not return Err: the overflowing
digit run before it makes the parse().unwrap() panic first. -/
theorem C2_claim_counterexample :
    recognizedByte 36 = false ∧
    36 ∈ [49, 56, 52, 52, 54, 55, 52, 52, 48, 55, 51, 55, 48, 57, 53, 53, 49, 54, 49, 54, 36] ∧
    lexResult [49, 56, 52, 52, 54, 55, 52, 52, 48, 55, 51, 55, 48, 57, 53, 53, 49, 54, 49, 54,
      36] = .panicked ∧
    ¬∃ e, lexResult [49, 56, 52, 52, 54, 55, 52, 52, 48, 55, 51, 55, 48, 57, 53, 53, 49, 54,
      49, 54, 36] = .error e := by
  refine ⟨by decide, by decide, by decide, ?_⟩
  rintro ⟨e, he⟩
  rw [show lexResult [49, 56, 52, 52, 54, 55, 52, 52, 48, 55, 51, 55, 48, 57, 53, 53, 49, 54,
    49, 54, 36] = .panicked from by decide] at he
  cases he

/-- C2 (amended): for every input containing at least one unrecognized
byte and in which the value of every maximal decimal-digit run fits in
usize, lex returns Err invalid-character carrying the first unclassifiable
byte in source order (decoded as a char) with its exact one-byte span. -/
theorem lex_first_invalid_char (input : List Nat) (i0 : Nat)
    (hfit : runsFit input = true) (hbad : firstBad input = some i0) :
    lexResult input =
      .error ⟨.InvalidChar (Char.ofNat (input.getD i0 0)), ⟨i0, i0 + 1⟩⟩ := by
  obtain ⟨hlen, hnotrec, hbefore⟩ := firstBad_spec input i0 hbad
  have hnp := lex_not_panicked input hfit
  cases hres : lexResult input with
  | ok ts =>
    exfalso
    have hall := lex_ok_all_recognized input ts hres i0 hlen
    rw [hall] at hnotrec
    cases hnotrec
  | error e =>
    obtain ⟨helt, hestop, hebad, heval, hebefore, _⟩ := lex_err_inv input e hres
    have heq : e.loc.start = i0 := by
      by_contra hne
      rcases Nat.lt_or_ge e.loc.start i0 with hlt | hge
      · have hg := hbefore e.loc.start hlt
        rw [hg] at hebad
        cases hebad
      · have hlt2 : i0 < e.loc.start := by omega
        have hg := hebefore i0 hlt2
        rw [hg] at hnotrec
        cases hnotrec
    obtain ⟨ev, el⟩ := e
    obtain ⟨es, et⟩ := el
    have h1 : es = i0 := heq
    have h2 : et = es + 1 := hestop
    have h3 : ev = .InvalidChar (Char.ofNat (input.getD es 0)) := heval
    subst h1
    rw [h2, h3]
  | panicked => exact absurd hres hnp

/-- C2 (witness): scanning "1 $ 2" fails with invalid-character '$' at
span [2, 3), by the amended theorem. -/
theorem lex_first_invalid_char_witness :
    runsFit [49, 32, 36, 32, 50] = true ∧
    firstBad [49, 32, 36, 32, 50] = some 2 ∧
    lexResult [49, 32, 36, 32, 50] = .error ⟨.InvalidChar '$', ⟨2, 3⟩⟩ := by
  refine ⟨by decide, by decide, ?_⟩
  have h := lex_first_invalid_char [49, 32, 36, 32, 50] 2 (by decide) (by decide)
  rw [h]
  decide

/-- C3 (counterexample): scanning "1 $ 2" returns the invalid-character
error, but the token recognized before the failure, Number(1) at [0, 1),
is not discarded: it remains observable in the scanner's public tokens
field alongside the returned error. -/
theorem C3_claim_counterexample :
    lexScan [49, 32, 36, 32, 50] =
      (.error ⟨.InvalidChar '$', ⟨2, 3⟩⟩, [⟨.Number 1, ⟨0, 1⟩⟩]) ∧
    lexTokensField [49, 32, 36, 32, 50] ≠ [] := by
  exact ⟨by decide, by decide⟩

/-- C3 (amended): when lex fails, the value returned to the caller is only
the Err (no Ok token list is returned), but the tokens recognized before
the failing byte are retained, not discarded: the public tokens field
holds exactly the tokens of the scanned prefix — chained left to right,
each a maximal run or operator token, tiling the region before the error
together with its whitespace. -/
theorem lex_error_result_and_field (input : List Nat) (e : LexError)
    (h : lexResult input = .error e) :
    (∀ ts, lexResult input ≠ .ok ts) ∧
    chainFrom 0 (lexTokensField input) = true ∧
    (∀ t ∈ lexTokensField input, t.loc.stop ≤ e.loc.start ∧ tokenRunOK input t) ∧
    (∀ i, i < e.loc.start →
      (covered (lexTokensField input) i ↔ isSpaceByte (input.getD i 0) = false)) := by
  obtain ⟨_, _, _, _, _, _, hchain, hmem, hcov⟩ := lex_err_inv input e h
  refine ⟨?_, hchain, hmem, fun i hi => hcov i (Nat.zero_le i) hi⟩
  intro ts hts
  rw [h] at hts
  cases hts

/-- C3 (witness): the amended theorem applied to "1 $ 2", whose tokens
field holds Number(1) at [0, 1) next to the returned error. -/
theorem lex_error_result_and_field_witness :
    lexResult [49, 32, 36, 32, 50] = .error ⟨.InvalidChar '$', ⟨2, 3⟩⟩ ∧
    lexTokensField [49, 32, 36, 32, 50] = [⟨.Number 1, ⟨0, 1⟩⟩] ∧
    ((∀ ts, lexResult [49, 32, 36, 32, 50] ≠ .ok ts) ∧
      chainFrom 0 (lexTokensField [49, 32, 36, 32, 50]) = true ∧
      (∀ t ∈ lexTokensField [49, 32, 36, 32, 50],
        t.loc.stop ≤ 2 ∧ tokenRunOK [49, 32, 36, 32, 50] t) ∧
      (∀ i, i < 2 → (covered (lexTokensField [49, 32, 36, 32, 50]) i ↔
        isSpaceByte ([49, 32, 36, 32, 50].getD i 0) = false))) :=
  ⟨by decide, by decide,
    lex_error_result_and_field [49, 32, 36, 32, 50] ⟨.InvalidChar '$', ⟨2, 3⟩⟩ (by decide)⟩

/-- C4: maximal munch for digit and identifier runs.  Scanning "123abc"
yields Number(123) over the digits followed by Identifier("abc") starting
where the digits end (never one merged token and never a digit-at-a-time
split); and in every successful scan each Number token covers a maximal
digit run, each Identifier/keyword token a maximal identifier run (the
byte after the span, if any, does not extend the run), so two consecutive
tokens with abutting spans are never of the same run kind. -/
theorem lex_maximal_munch :
    lexResult [49, 50, 51, 97, 98, 99] =
      .ok [⟨.Number 123, ⟨0, 3⟩⟩, ⟨.Identifier "abc", ⟨3, 6⟩⟩] ∧
    ∀ (input : List Nat) (ts : List Token), lexResult input = .ok ts →
      (∀ t ∈ ts, tokenRunOK input t) ∧
      List.Chain' (fun t1 t2 => t1.loc.stop = t2.loc.start →
        (numKind t1.value && numKind t2.value) = false ∧
        (identRunKind t1.value && identRunKind t2.value) = false) ts := by
  refine ⟨by decide, ?_⟩
  intro input ts h
  obtain ⟨hf, hchain, hmem, hcov⟩ := lex_ok_inv input ts h
  exact ⟨fun t ht => (hmem t ht).2, chain'_no_same_run input ts 0 hchain hmem⟩

/-- C4 (witness): the general maximal-munch conclusion instantiated at
"123abc". -/
theorem lex_maximal_munch_witness :
    lexResult [49, 50, 51, 97, 98, 99] =
      .ok [⟨.Number 123, ⟨0, 3⟩⟩, ⟨.Identifier "abc", ⟨3, 6⟩⟩] ∧
    ((∀ t ∈ [(⟨.Number 123, ⟨0, 3⟩⟩ : Token), ⟨.Identifier "abc", ⟨3, 6⟩⟩],
        tokenRunOK [49, 50, 51, 97, 98, 99] t) ∧
      List.Chain' (fun t1 t2 => t1.loc.stop = t2.loc.start →
        (numKind t1.value && numKind t2.value) = false ∧
        (identRunKind t1.value && identRunKind t2.value) = false)
        [(⟨.Number 123, ⟨0, 3⟩⟩ : Token), ⟨.Identifier "abc", ⟨3, 6⟩⟩]) :=
  ⟨by decide,
    lex_maximal_munch.2 [49, 50, 51, 97, 98, 99]
      [⟨.Number 123, ⟨0, 3⟩⟩, ⟨.Identifier "abc", ⟨3, 6⟩⟩] (by decide)⟩

/-- C5: keyword disambiguation is by exact match on the whole collected
run: "int" lexes to the Int keyword token, "internal" and "returning" to
single Identifier tokens; the table maps exactly the spellings "int" and
"return" and nothing else. -/
theorem lex_keyword_exact_match :
    lexResult [105, 110, 116] = .ok [⟨.Int, ⟨0, 3⟩⟩] ∧
    lexResult [105, 110, 116, 101, 114, 110, 97, 108] =
      .ok [⟨.Identifier "internal", ⟨0, 8⟩⟩] ∧
    lexResult [114, 101, 116, 117, 114, 110, 105, 110, 103] =
      .ok [⟨.Identifier "returning", ⟨0, 9⟩⟩] ∧
    List.lookup "int" reserve_keywords = some TokenKind.Int ∧
    List.lookup "return" reserve_keywords = some TokenKind.Return ∧
    ∀ s : String, s ≠ "int" → s ≠ "return" → List.lookup s reserve_keywords = none := by
  refine ⟨by decide, by decide, by decide, by decide, by decide, ?_⟩
  intro s h1 h2
  have hb1 : (s == "int") = false := by simpa using h1
  have hb2 : (s == "return") = false := by simpa using h2
  simp [List.lookup, reserve_keywords, hb1, hb2]

/-- C5 (witness): exact-match lookup misses a non-keyword spelling. -/
theorem lex_keyword_exact_match_witness :
    ("x" : String) ≠ "int" ∧ ("x" : String) ≠ "return" ∧
    List.lookup "x" reserve_keywords = none :=
  ⟨by decide, by decide, lex_keyword_exact_match.2.2.2.2.2 "x" (by decide) (by decide)⟩

/-- C6: operator atomicity.  Scanning "+/*(-)" yields exactly the six
one-byte tokens Plus, Slash, Asterisk, LParen, Minus, RParen with spans
[0,1) … [5,6); and in every successful scan, every position holding one of
the eight operator/punctuation bytes is covered by exactly that byte's
dedicated token with a one-byte span — there is no operator combining. -/
theorem lex_operator_atomicity :
    lexResult [43, 47, 42, 40, 45, 41] =
      .ok [⟨.Plus, ⟨0, 1⟩⟩, ⟨.Slash, ⟨1, 2⟩⟩, ⟨.Asterisk, ⟨2, 3⟩⟩,
           ⟨.LParen, ⟨3, 4⟩⟩, ⟨.Minus, ⟨4, 5⟩⟩, ⟨.RParen, ⟨5, 6⟩⟩] ∧
    ∀ (input : List Nat) (ts : List Token), lexResult input = .ok ts →
      ∀ i, i < input.length → isOpByte (input.getD i 0) = true →
        ∃ t, t ∈ ts ∧ t.value = opTokenOf (input.getD i 0) ∧ t.loc = ⟨i, i + 1⟩ := by
  refine ⟨by decide, ?_⟩
  intro input ts h i hi hop
  obtain ⟨hf, hchain, hmem, hcov⟩ := lex_ok_inv input ts h
  have hnws : isSpaceByte (input.getD i 0) = false := opByte_not_space hop
  have hcv : covered ts i := (hcov i (Nat.zero_le i) hi).mpr hnws
  obtain ⟨t, ht, hti⟩ := hcv
  obtain ⟨hstop, hok⟩ := hmem t ht
  refine ⟨t, ht, ?_⟩
  rcases t with ⟨tv, ls, lt⟩
  have h1 : ls ≤ i := hti.1
  have h2 : i < lt := hti.2
  cases tv with
  | Number n =>
    exfalso
    have hd := hok.1 i h1 h2
    rw [opByte_not_digit hop] at hd
    cases hd
  | Identifier s =>
    exfalso
    have hd := hok.1 i h1 h2
    rw [opByte_not_ident hop] at hd
    cases hd
  | Int =>
    exfalso
    have hd := hok.1 i h1 h2
    rw [opByte_not_ident hop] at hd
    cases hd
  | Return =>
    exfalso
    have hd := hok.1 i h1 h2
    rw [opByte_not_ident hop] at hd
    cases hd
  | Plus =>
    have hop1 : input.getD ls 0 = 43 := hok.1
    have hop2 : lt = ls + 1 := hok.2
    have hieq : i = ls := by omega
    constructor
    · rw [hieq, hop1]
      rfl
    · rw [hieq, hop2]
  | Minus =>
    have hop1 : input.getD ls 0 = 45 := hok.1
    have hop2 : lt = ls + 1 := hok.2
    have hieq : i = ls := by omega
    constructor
    · rw [hieq, hop1]
      rfl
    · rw [hieq, hop2]
  | Asterisk =>
    have hop1 : input.getD ls 0 = 42 := hok.1
    have hop2 : lt = ls + 1 := hok.2
    have hieq : i = ls := by omega
    constructor
    · rw [hieq, hop1]
      rfl
    · rw [hieq, hop2]
  | Slash =>
    have hop1 : input.getD ls 0 = 47 := hok.1
    have hop2 : lt = ls + 1 := hok.2
    have hieq : i = ls := by omega
    constructor
    · rw [hieq, hop1]
      rfl
    · rw [hieq, hop2]
  | LParen =>
    have hop1 : input.getD ls 0 = 40 := hok.1
    have hop2 : lt = ls + 1 := hok.2
    have hieq : i = ls := by omega
    constructor
    · rw [hieq, hop1]
      rfl
    · rw [hieq, hop2]
  | RParen =>
    have hop1 : input.getD ls 0 = 41 := hok.1
    have hop2 : lt = ls + 1 := hok.2
    have hieq : i = ls := by omega
    constructor
    · rw [hieq, hop1]
      rfl
    · rw [hieq, hop2]
  | Assignment =>
    have hop1 : input.getD ls 0 = 61 := hok.1
    have hop2 : lt = ls + 1 := hok.2
    have hieq : i = ls := by omega
    constructor
    · rw [hieq, hop1]
      rfl
    · rw [hieq, hop2]
  | Semicolon =>
    have hop1 : input.getD ls 0 = 59 := hok.1
    have hop2 : lt = ls + 1 := hok.2
    have hieq : i = ls := by omega
    constructor
    · rw [hieq, hop1]
      rfl
    · rw [hieq, hop2]

/-- C6 (witness): the general operator-atomicity conclusion at input "+",
position 0. -/
theorem lex_operator_atomicity_witness :
    lexResult [43] = .ok [⟨.Plus, ⟨0, 1⟩⟩] ∧
    isOpByte ([43].getD 0 0) = true ∧
    ∃ t, t ∈ [(⟨.Plus, ⟨0, 1⟩⟩ : Token)] ∧ t.value = opTokenOf ([43].getD 0 0) ∧
      t.loc = ⟨0, 0 + 1⟩ :=
  ⟨by decide, by decide,
    lex_operator_atomicity.2 [43] [⟨.Plus, ⟨0, 1⟩⟩] (by decide) 0 (by decide) (by decide)⟩

/-- C7: every Location attached to a token of a successful scan or to a
lexical error is a valid half-open byte range into the input:
start ≤ stop ≤ input length. -/
theorem lex_loc_invariant (input : List Nat) :
    (∀ ts, lexResult input = .ok ts →
      ∀ t ∈ ts, t.loc.start ≤ t.loc.stop ∧ t.loc.stop ≤ input.length) ∧
    (∀ e, lexResult input = .error e →
      e.loc.start ≤ e.loc.stop ∧ e.loc.stop ≤ input.length) := by
  constructor
  · intro ts h t ht
    obtain ⟨hf, hchain, hmem, hcov⟩ := lex_ok_inv input ts h
    have hc := chainFrom_le ts 0 hchain t ht
    exact ⟨by omega, (hmem t ht).1⟩
  · intro e h
    obtain ⟨hlt, hstop, _⟩ := lex_err_inv input e h
    exact ⟨by omega, by omega⟩

/-- C7 (witness): the location invariant at a token of "a" and at the
error of "$". -/
theorem lex_loc_invariant_witness :
    lexResult [97] = .ok [⟨.Identifier "a", ⟨0, 1⟩⟩] ∧
    ((⟨.Identifier "a", ⟨0, 1⟩⟩ : Token).loc.start ≤
        (⟨.Identifier "a", ⟨0, 1⟩⟩ : Token).loc.stop ∧
      (⟨.Identifier "a", ⟨0, 1⟩⟩ : Token).loc.stop ≤ [97].length) ∧
    lexResult [36] = .error ⟨.InvalidChar '$', ⟨0, 1⟩⟩ ∧
    ((⟨.InvalidChar '$', ⟨0, 1⟩⟩ : LexError).loc.start ≤
        (⟨.InvalidChar '$', ⟨0, 1⟩⟩ : LexError).loc.stop ∧
      (⟨.InvalidChar '$', ⟨0, 1⟩⟩ : LexError).loc.stop ≤ [36].length) :=
  ⟨by decide,
    (lex_loc_invariant [97]).1 [⟨.Identifier "a", ⟨0, 1⟩⟩] (by decide)
      ⟨.Identifier "a", ⟨0, 1⟩⟩ (by decide),
    by decide,
    (lex_loc_invariant [36]).2 ⟨.InvalidChar '$', ⟨0, 1⟩⟩ (by decide)⟩

/-- C8: the Eof error kind is unreachable under the current rule set: every
error lex returns is an InvalidChar. -/
theorem lex_no_eof_error (input : List Nat) (e : LexError)
    (h : lexResult input = .error e) :
    e.value ≠ .Eof ∧ ∃ c, e.value = .InvalidChar c := by
  obtain ⟨_, _, _, hval, _⟩ := lex_err_inv input e h
  constructor
  · rw [hval]
    simp
  · exact ⟨_, hval⟩

/-- C8 (witness): the error of "$" is an InvalidChar, not Eof. -/
theorem lex_no_eof_error_witness :
    lexResult [36] = .error ⟨.InvalidChar '$', ⟨0, 1⟩⟩ ∧
    ((⟨.InvalidChar '$', ⟨0, 1⟩⟩ : LexError).value ≠ .Eof ∧
      ∃ c, (⟨.InvalidChar '$', ⟨0, 1⟩⟩ : LexError).value = .InvalidChar c) :=
  ⟨by decide, lex_no_eof_error [36] ⟨.InvalidChar '$', ⟨0, 1⟩⟩ (by decide)⟩

/-- C9: when the value of every maximal decimal-digit run of the input
fits in usize, lex terminates normally with Ok or Err and never panics;
without that precondition, the 20-digit input "18446744073709551616"
makes the parse().unwrap() of lex_number panic; and every byte of a digit
or identifier run is ASCII (below 128), so the from_utf8 unwraps always
succeed. -/
theorem lex_panic_characterization :
    (∀ input : List Nat, runsFit input = true →
      (∃ ts, lexResult input = .ok ts) ∨ (∃ e, lexResult input = .error e)) ∧
    lexResult [49, 56, 52, 52, 54, 55, 52, 52, 48, 55, 51, 55, 48, 57, 53, 53, 49, 54, 49, 54] =
      .panicked ∧
    (∀ b : Nat, isIdentByte b = true → b < 128) := by
  refine ⟨?_, by decide, ?_⟩
  · intro input hfit
    have hnp := lex_not_panicked input hfit
    cases hres : lexResult input with
    | ok ts => exact Or.inl ⟨ts, rfl⟩
    | error e => exact Or.inr ⟨e, rfl⟩
    | panicked => exact absurd hres hnp
  · intro b hb
    simp only [isIdentByte, isIdentStartByte, isDigitByte, Bool.or_eq_true, Bool.and_eq_true,
      decide_eq_true_eq, beq_iff_eq] at hb
    omega

/-- C9 (witness): the no-panic direction applied to the one-digit input
"1". -/
theorem lex_panic_characterization_witness :
    runsFit [49] = true ∧
    ((∃ ts, lexResult [49] = .ok ts) ∨ (∃ e, lexResult [49] = .error e)) :=
  ⟨by decide, lex_panic_characterization.1 [49] (by decide)⟩

/-- C10: scanning is deterministic and stateless across scans: two lexers
constructed fresh from the same input (each building its own keyword table
inside its lex call) produce identical results — the same Result and the
same final tokens field. -/
theorem lex_deterministic (input : List Nat) (l1 l2 : Lexer)
    (h1 : l1 = Lexer.new input) (h2 : l2 = Lexer.new input) :
    l1.lex = l2.lex ∧ l1.lex = lexScan input := by
  subst h1
  subst h2
  exact ⟨rfl, rfl⟩

/-- C10 (witness): two fresh scans of "+" agree. -/
theorem lex_deterministic_witness :
    Lexer.new [43] = Lexer.new [43] ∧
    ((Lexer.new [43]).lex = (Lexer.new [43]).lex ∧ (Lexer.new [43]).lex = lexScan [43]) :=
  ⟨rfl, lex_deterministic [43] (Lexer.new [43]) (Lexer.new [43]) rfl rfl⟩
